import Mathlib

/-!
A shallow embedding of `runtime/transaction.cc`: the transactional mutation
log with rollback used during ahead-of-time class initialization.

Modelling conventions:
* pointers (object, array, string and dex-cache identities) are natural
  numbers; the null pointer is `0`;
* machine integers are naturals reduced modulo powers of two at exactly the
  places the C++ code converts between integer types;
* `std::map` keyed by pointer identity is an association list
  (`List (Nat × _)`) with `alookup` / `alistUpdate` / `eraseKey` mirroring
  `find` / `operator[]` / `erase`;
* the external collaborators (the object model's slots and accessors, the
  heap services, the intern table, the dex caches, the GC root visitor) are
  explicit state threaded through the operations; a GC visitor is a
  relocation function `Nat → Nat` on identities;
* a field store performed by `ObjectLog::Undo` is reified as a
  `FieldWriteOp` (the kind, offset, stored bits and volatility of the one
  `SetField*` call the source makes), and the heap effect is obtained by
  applying those ops in order.
-/

namespace Art

/-- Pointwise update of a total map; models a store into one slot. -/
def updN {α : Type} (f : Nat → α) (k : Nat) (v : α) : Nat → α :=
  fun x => if x = k then v else f x

/-- Association-list lookup keyed by identity; models std::map::find. -/
def alookup {α : Type} : List (Nat × α) → Nat → Option α
  | [], _ => none
  | p :: rest, k => if p.1 = k then some p.2 else alookup rest k

/-- Remove a key; models std::map::erase. -/
def eraseKey {α : Type} : List (Nat × α) → Nat → List (Nat × α)
  | [], _ => []
  | p :: rest, k => if p.1 = k then eraseKey rest k else p :: eraseKey rest k

/-- The keys of an association list. -/
def keysOf {α : Type} (m : List (Nat × α)) : List Nat := m.map Prod.fst

/-- std::map::operator[] followed by a mutation of the entry: apply f to the
entry at k, default-constructing it (d) when absent. -/
def alistUpdate {α : Type} (d : α) (f : α → α) : List (Nat × α) → Nat → List (Nat × α)
  | [], k => [(k, f d)]
  | p :: rest, k => if p.1 = k then (p.1, f p.2) :: rest else p :: alistUpdate d f rest k

/-- Transaction::ObjectLog::FieldValueKind (transaction.h). -/
inductive FieldValueKind
  | kBoolean
  | kByte
  | kChar
  | kShort
  | k32Bits
  | k64Bits
  | kReference
deriving DecidableEq

/-- The bit width of the C++ type each field kind is stored back at by
ObjectLog::UndoFieldWrite. -/
def kindWidth : FieldValueKind → Nat
  | .kBoolean => 8
  | .kByte => 8
  | .kChar => 16
  | .kShort => 16
  | .k32Bits => 32
  | .k64Bits => 64
  | .kReference => 64

/-- Sign extension of a w-bit two's-complement pattern into the uint64_t
value produced by the C++ integral promotion of an int8_t or int16_t
argument at the ObjectLog::LogValue call boundary. -/
def sextTo64 (w v : Nat) : Nat :=
  if v % 2 ^ w < 2 ^ (w - 1) then v % 2 ^ w else 2 ^ 64 - 2 ^ w + v % 2 ^ w

/-- The uint64_t actually stored by ObjectLog::LogValue for each
RecordWriteField* entry point: the C++ conversion of the typed parameter
(uint8_t, int8_t, uint16_t, int16_t, uint32_t, uint64_t, pointer) to the
uint64_t parameter of LogValue. -/
def recordConv : FieldValueKind → Nat → Nat
  | .kBoolean, v => v % 2 ^ 8
  | .kByte, v => sextTo64 8 v
  | .kChar, v => v % 2 ^ 16
  | .kShort, v => sextTo64 16 v
  | .k32Bits, v => v % 2 ^ 32
  | .k64Bits, v => v % 2 ^ 64
  | .kReference, v => v % 2 ^ 64

/-- The bits stored back by the static_cast in each branch of
ObjectLog::UndoFieldWrite (transaction.cc lines 486-570): truncation of the
logged uint64_t to the branch's type width. -/
def fieldCast : FieldValueKind → Nat → Nat
  | .kBoolean, v => v % 2 ^ 8
  | .kByte, v => v % 2 ^ 8
  | .kChar, v => v % 2 ^ 16
  | .kShort, v => v % 2 ^ 16
  | .k32Bits, v => v % 2 ^ 32
  | .k64Bits, v => v % 2 ^ 64
  | .kReference, v => v % 2 ^ 64

/-- Transaction::ObjectLog::FieldValue (transaction.h). -/
structure FieldValue where
  value : Nat
  is_volatile : Bool
  kind : FieldValueKind
deriving DecidableEq

/-- Transaction::ObjectLog: per-object map from field offset to the value
observed before the transaction's first write there. -/
structure ObjectLog where
  field_values : List (Nat × FieldValue)
deriving DecidableEq

/-- ObjectLog::LogValue (transaction.cc lines 453-465): first-write-wins,
the entry is created only when the offset is not present yet. -/
def ObjectLog.LogValue (log : ObjectLog) (kind : FieldValueKind) (offset : Nat)
    (value : Nat) (is_volatile : Bool) : ObjectLog :=
  match alookup log.field_values offset with
  | some _ => log
  | none => ⟨log.field_values ++ [(offset, ⟨value, is_volatile, kind⟩)]⟩

/-- Primitive::Type of the external object model. -/
inductive PrimitiveType
  | kPrimBoolean
  | kPrimByte
  | kPrimChar
  | kPrimShort
  | kPrimInt
  | kPrimFloat
  | kPrimLong
  | kPrimDouble
  | kPrimNot
deriving DecidableEq

/-- External object model: the slots of one heap object that this file
reads or writes (class identity, array-ness, component type, fields by
offset, array elements by index).  Field and element slots hold raw bit
patterns. -/
structure ObjContent where
  isClass : Bool
  isArrayInstance : Bool
  klass : Nat
  componentType : PrimitiveType
  fields : Nat → Nat
  elements : Nat → Nat

instance : Inhabited ObjContent :=
  ⟨⟨false, false, 0, .kPrimNot, fun _ => 0, fun _ => 0⟩⟩

/-- Set-insert used by the external intern table (modelled: the table is a
set of canonical string identities per retention tier). -/
def insertStr (s : Nat) (l : List Nat) : List Nat :=
  if s ∈ l then l else s :: l

/-- Removal of one entry from the external intern table. -/
def removeStr (s : Nat) : List Nat → List Nat
  | [] => []
  | x :: rest => if x = s then rest else x :: removeStr s rest

/-- External string-interning table: strong and weak tiers. -/
structure InternTable where
  strong : List Nat
  weak : List Nat
deriving DecidableEq

def InternTable.InsertStrongFromTransaction (tb : InternTable) (s : Nat) : InternTable :=
  { tb with strong := insertStr s tb.strong }

def InternTable.InsertWeakFromTransaction (tb : InternTable) (s : Nat) : InternTable :=
  { tb with weak := insertStr s tb.weak }

def InternTable.RemoveStrongFromTransaction (tb : InternTable) (s : Nat) : InternTable :=
  { tb with strong := removeStr s tb.strong }

def InternTable.RemoveWeakFromTransaction (tb : InternTable) (s : Nat) : InternTable :=
  { tb with weak := removeStr s tb.weak }

/-- Transaction::InternStringLog::StringKind. -/
inductive StringKind
  | kStrongString
  | kWeakString
deriving DecidableEq

/-- Transaction::InternStringLog::StringOp. -/
inductive StringOp
  | kInsert
  | kRemove
deriving DecidableEq

/-- Transaction::InternStringLog (transaction.cc lines 639-646). -/
structure InternStringLog where
  str : Nat
  string_kind : StringKind
  string_op : StringOp
deriving DecidableEq

/-- InternStringLog::Undo (transaction.cc lines 582-617): undoing an insert
removes the string from the named table, undoing a remove re-inserts it. -/
def InternStringLog.Undo (log : InternStringLog) (intern_table : InternTable) : InternTable :=
  match log.string_op, log.string_kind with
  | .kInsert, .kStrongString => intern_table.RemoveStrongFromTransaction log.str
  | .kInsert, .kWeakString => intern_table.RemoveWeakFromTransaction log.str
  | .kRemove, .kStrongString => intern_table.InsertStrongFromTransaction log.str
  | .kRemove, .kWeakString => intern_table.InsertWeakFromTransaction log.str

/-- Transaction::ResolveStringLog (transaction.cc lines 627-633). -/
structure ResolveStringLog where
  dex_cache : Nat
  string_idx : Nat
deriving DecidableEq

/-- ResolveStringLog::Undo (transaction.cc lines 623-625):
dex_cache_.Read()->ClearString(string_idx_), clearing the one logged slot
of the one logged dex cache back to unresolved. -/
def ResolveStringLog.Undo (log : ResolveStringLog) (caches : Nat → Nat → Option Nat) :
    Nat → Nat → Option Nat :=
  fun c i => if c = log.dex_cache ∧ i = log.string_idx then none else caches c i

/-- The external heap services consumed by the transaction, plus the parts
of heap state the logs restore: objects, the intern table, dex caches. -/
structure Heap where
  objects : Nat → ObjContent
  ObjectIsInBootImageSpace : Nat → Bool
  bootImageSpacesEmpty : Bool
  CanReferenceInBootImageExtension : Nat → Bool
  internTable : InternTable
  dexCaches : Nat → Nat → Option Nat

/-- Transaction::ArrayLog: per-array map from element index to the raw
64-bit value observed before the transaction's first write there. -/
structure ArrayLog where
  array_values : List (Nat × Nat)
deriving DecidableEq

/-- ArrayLog::LogValue (transaction.cc lines 648-653): first-write-wins per
index. -/
def ArrayLog.LogValue (log : ArrayLog) (index value : Nat) : ArrayLog :=
  match alookup log.array_values index with
  | some _ => log
  | none => ⟨log.array_values ++ [(index, value)]⟩

/-- Structural-recursion computation of the position of the most
significant bit (fuel-driven so that it evaluates inside the kernel). -/
def log2Fuel : Nat → Nat → Nat
  | 0, _ => 0
  | fuel + 1, n => if n < 2 then 0 else log2Fuel fuel (n / 2) + 1

/-- Floor of the base-2 logarithm of a positive natural. -/
def natLog2 (n : Nat) : Nat := log2Fuel n n

/-- IEEE-754 round-to-nearest-even conversion of a natural number to a
binary floating-point bit pattern with the given significand field width
and exponent bias; this is the value semantics of the C++
static_cast from uint64_t to float or double (for the inputs reachable
here the exponent never overflows). -/
def fpBitsOfNat (sigBits expBias n : Nat) : Nat :=
  if n = 0 then 0
  else
    let e := natLog2 n
    if e ≤ sigBits then
      (e + expBias) * 2 ^ sigBits + (n - 2 ^ e) * 2 ^ (sigBits - e)
    else
      let sh := e - sigBits
      let q := n / 2 ^ sh
      let r := n % 2 ^ sh
      let q' := if 2 ^ sh < 2 * r ∨ (2 * r = 2 ^ sh ∧ q % 2 = 1) then q + 1 else q
      if q' = 2 ^ (sigBits + 1) then (e + 1 + expBias) * 2 ^ sigBits
      else (e + expBias) * 2 ^ sigBits + (q' - 2 ^ sigBits)

/-- Bit pattern of static_cast to float of a uint64_t value. -/
def fp32OfUint64 (n : Nat) : Nat := fpBitsOfNat 23 127 (n % 2 ^ 64)

/-- Bit pattern of static_cast to double of a uint64_t value. -/
def fp64OfUint64 (n : Nat) : Nat := fpBitsOfNat 52 1023 (n % 2 ^ 64)

/-- ArrayLog::UndoArrayWrite (transaction.cc lines 664-711): the element
slot and the bit pattern stored back for one logged index, per primitive
component type.  The six integral branches static_cast the logged uint64_t
to the component's integer type (a truncation of the bit pattern); the
float and double branches static_cast it to a floating-point type (a
numeric conversion); the kPrimNot branch is LOG(FATAL), modelled none. -/
def ArrayLog.UndoArrayWrite (array_type : PrimitiveType) (index value : Nat) :
    Option (Nat × Nat) :=
  match array_type with
  | .kPrimBoolean => some (index, value % 2 ^ 8)
  | .kPrimByte => some (index, value % 2 ^ 8)
  | .kPrimChar => some (index, value % 2 ^ 16)
  | .kPrimShort => some (index, value % 2 ^ 16)
  | .kPrimInt => some (index, value % 2 ^ 32)
  | .kPrimFloat => some (index, fp32OfUint64 value)
  | .kPrimLong => some (index, value % 2 ^ 64)
  | .kPrimDouble => some (index, fp64OfUint64 value)
  | .kPrimNot => none

/-- The six array component types whose UndoArrayWrite branch is an
integral static_cast (a bit-pattern truncation). -/
def isIntegralArrayType : PrimitiveType → Bool
  | .kPrimBoolean => true
  | .kPrimByte => true
  | .kPrimChar => true
  | .kPrimShort => true
  | .kPrimInt => true
  | .kPrimLong => true
  | .kPrimFloat => false
  | .kPrimDouble => false
  | .kPrimNot => false

/-- Bit width of an array component type's element slot. -/
def primWidth : PrimitiveType → Nat
  | .kPrimBoolean => 8
  | .kPrimByte => 8
  | .kPrimChar => 16
  | .kPrimShort => 16
  | .kPrimInt => 32
  | .kPrimFloat => 32
  | .kPrimLong => 64
  | .kPrimDouble => 64
  | .kPrimNot => 0

/-- ArrayLog::Undo (transaction.cc lines 655-662): determine the array's
primitive component type once, then store every logged index back. -/
def ArrayLog.Undo (log : ArrayLog) (array : ObjContent) : ObjContent :=
  let t := array.componentType
  log.array_values.foldl
    (fun a p =>
      match ArrayLog.UndoArrayWrite t p.1 p.2 with
      | some q => { a with elements := updN a.elements q.1 q.2 }
      | none => a)
    array

/-- mirror::Class::ClassOffset(): the offset of the class-identity slot in
the external object model (a fixed constant of that model). -/
def ClassOffset : Nat := 0

/-- mirror::Array::LengthOffset(): the offset of the array length slot in
the external object model (a fixed constant of that model, distinct from
ClassOffset). -/
def LengthOffset : Nat := 8

/-- One field store performed during undo: the kind, offset, stored bits
and volatility of a single SetField* call. -/
structure FieldWriteOp where
  kind : FieldValueKind
  offset : Nat
  value : Nat
  is_volatile : Bool
deriving DecidableEq

/-- ObjectLog::UndoFieldWrite (transaction.cc lines 486-570): the single
field store performed for one logged entry; every branch stores the logged
value truncated by its static_cast, with the logged volatility selecting
the volatile or non-volatile accessor. -/
def ObjectLog.UndoFieldWrite (offset : Nat) (fv : FieldValue) : FieldWriteOp :=
  ⟨fv.kind, offset, fieldCast fv.kind fv.value, fv.is_volatile⟩

/-- The sequence of field stores ObjectLog::Undo (transaction.cc lines
467-484) performs: every logged offset in log order, except the class
slot, and except the length slot when the object is an array instance. -/
def ObjectLog.UndoWrites (log : ObjectLog) (obj : ObjContent) : List FieldWriteOp :=
  log.field_values.filterMap (fun p =>
    if p.1 = ClassOffset then none
    else if obj.isArrayInstance = true ∧ p.1 = LengthOffset then none
    else some (ObjectLog.UndoFieldWrite p.1 p.2))

/-- Effect of one SetField* call on the object's slots (volatility does not
change the stored bits). -/
def applyFieldWriteOp (obj : ObjContent) (op : FieldWriteOp) : ObjContent :=
  { obj with fields := updN obj.fields op.offset op.value }

/-- ObjectLog::Undo as a state transformer: perform its stores in order. -/
def ObjectLog.Undo (log : ObjectLog) (obj : ObjContent) : ObjContent :=
  (log.UndoWrites obj).foldl applyFieldWriteOp obj

/-- ObjectLog::VisitRoots (transaction.cc lines 572-580): the visitor
relocates every non-null reference-kind logged value in place. -/
def ObjectLog.VisitRoots (log : ObjectLog) (visitor : Nat → Nat) : ObjectLog :=
  ⟨log.field_values.map (fun p =>
    if p.2.kind = .kReference ∧ p.2.value ≠ 0 then (p.1, { p.2 with value := visitor p.2.value })
    else p)⟩

/-- The Transaction object (transaction.h data members). -/
structure Transaction where
  aborted : Bool
  abort_message : String
  rolling_back : Bool
  strict : Bool
  root : Nat
  assert_no_new_records_reason : Option String
  object_logs : List (Nat × ObjectLog)
  array_logs : List (Nat × ArrayLog)
  intern_string_logs : List InternStringLog
  resolve_string_logs : List ResolveStringLog
deriving DecidableEq

/-- Transaction::Transaction (transaction.cc lines 43-52): all flags clear,
message empty, no guard reason, all log collections empty. -/
def Transaction.create (strict : Bool) (root : Nat) : Transaction :=
  { aborted := false
    abort_message := ""
    rolling_back := false
    strict := strict
    root := root
    assert_no_new_records_reason := none
    object_logs := []
    array_logs := []
    intern_string_logs := []
    resolve_string_logs := [] }

def Transaction.IsAborted (t : Transaction) : Bool := t.aborted

def Transaction.IsRollingBack (t : Transaction) : Bool := t.rolling_back

def Transaction.GetAbortMessage (t : Transaction) : String := t.abort_message

def Transaction.IsStrict (t : Transaction) : Bool := t.strict

/-- Transaction::Abort (transaction.cc lines 79-89): only the first call
sets the flag and stores its message. -/
def Transaction.Abort (t : Transaction) (abort_message : String) : Transaction :=
  if !t.aborted then { t with aborted := true, abort_message := abort_message } else t

/-- Transaction::WriteConstraint (transaction.cc lines 122-136). -/
def Transaction.WriteConstraint (t : Transaction) (h : Heap) (obj : Nat) : Bool :=
  if h.ObjectIsInBootImageSpace obj then true
  else t.IsStrict && (h.objects obj).isClass && !(obj == t.root)

/-- value->IsClass() ? value->AsClass() : value->GetClass()
(transaction.cc line 151). -/
def classOf (h : Heap) (v : Nat) : Nat :=
  if (h.objects v).isClass then v else (h.objects v).klass

/-- Transaction::WriteValueConstraint (transaction.cc lines 138-154); the
value argument is an optional identity, none modelling null. -/
def Transaction.WriteValueConstraint (t : Transaction) (h : Heap) (value : Option Nat) : Bool :=
  match value with
  | none => false
  | some v =>
    if t.IsStrict then false
    else if h.bootImageSpacesEmpty then false
    else !(h.CanReferenceInBootImageExtension (classOf h v))

/-- Transaction::ReadConstraint (transaction.cc lines 156-167). -/
def Transaction.ReadConstraint (t : Transaction) (obj : Nat) : Bool :=
  if t.IsStrict then !(obj == t.root) else false

/-- Shared body of the seven RecordWriteField* entry points (transaction.cc
lines 169-246): object_logs_[obj] lookup-or-create, then
ObjectLog::LogValue with the given kind and converted value. -/
def Transaction.logFieldValue (t : Transaction) (obj offset : Nat) (kind : FieldValueKind)
    (value64 : Nat) (is_volatile : Bool) : Transaction :=
  { t with
    object_logs :=
      alistUpdate ⟨[]⟩ (fun log => log.LogValue kind offset value64 is_volatile)
        t.object_logs obj }

def Transaction.RecordWriteFieldBoolean (t : Transaction) (obj offset value : Nat)
    (is_volatile : Bool) : Transaction :=
  t.logFieldValue obj offset .kBoolean (recordConv .kBoolean value) is_volatile

def Transaction.RecordWriteFieldByte (t : Transaction) (obj offset value : Nat)
    (is_volatile : Bool) : Transaction :=
  t.logFieldValue obj offset .kByte (recordConv .kByte value) is_volatile

def Transaction.RecordWriteFieldChar (t : Transaction) (obj offset value : Nat)
    (is_volatile : Bool) : Transaction :=
  t.logFieldValue obj offset .kChar (recordConv .kChar value) is_volatile

def Transaction.RecordWriteFieldShort (t : Transaction) (obj offset value : Nat)
    (is_volatile : Bool) : Transaction :=
  t.logFieldValue obj offset .kShort (recordConv .kShort value) is_volatile

def Transaction.RecordWriteField32 (t : Transaction) (obj offset value : Nat)
    (is_volatile : Bool) : Transaction :=
  t.logFieldValue obj offset .k32Bits (recordConv .k32Bits value) is_volatile

def Transaction.RecordWriteField64 (t : Transaction) (obj offset value : Nat)
    (is_volatile : Bool) : Transaction :=
  t.logFieldValue obj offset .k64Bits (recordConv .k64Bits value) is_volatile

def Transaction.RecordWriteFieldReference (t : Transaction) (obj offset value : Nat)
    (is_volatile : Bool) : Transaction :=
  t.logFieldValue obj offset .kReference (recordConv .kReference value) is_volatile

/-- Dispatcher over the seven RecordWriteField* entry points, for stating
claims uniformly over all field kinds. -/
def Transaction.RecordWriteField (t : Transaction) (kind : FieldValueKind)
    (obj offset value : Nat) (is_volatile : Bool) : Transaction :=
  match kind with
  | .kBoolean => t.RecordWriteFieldBoolean obj offset value is_volatile
  | .kByte => t.RecordWriteFieldByte obj offset value is_volatile
  | .kChar => t.RecordWriteFieldChar obj offset value is_volatile
  | .kShort => t.RecordWriteFieldShort obj offset value is_volatile
  | .k32Bits => t.RecordWriteField32 obj offset value is_volatile
  | .k64Bits => t.RecordWriteField64 obj offset value is_volatile
  | .kReference => t.RecordWriteFieldReference obj offset value is_volatile

/-- Transaction::RecordWriteArray (transaction.cc lines 248-260):
array_logs_ find-or-emplace-default, then ArrayLog::LogValue. -/
def Transaction.RecordWriteArray (t : Transaction) (array index value : Nat) : Transaction :=
  { t with
    array_logs :=
      alistUpdate ⟨[]⟩ (fun log => log.LogValue index value) t.array_logs array }

/-- Transaction::LogInternedString (transaction.cc lines 291-296):
push_front, so the sequence is most-recent-first. -/
def Transaction.LogInternedString (t : Transaction) (log : InternStringLog) : Transaction :=
  { t with intern_string_logs := log :: t.intern_string_logs }

def Transaction.RecordStrongStringInsertion (t : Transaction) (s : Nat) : Transaction :=
  t.LogInternedString ⟨s, .kStrongString, .kInsert⟩

def Transaction.RecordWeakStringInsertion (t : Transaction) (s : Nat) : Transaction :=
  t.LogInternedString ⟨s, .kWeakString, .kInsert⟩

def Transaction.RecordStrongStringRemoval (t : Transaction) (s : Nat) : Transaction :=
  t.LogInternedString ⟨s, .kStrongString, .kRemove⟩

def Transaction.RecordWeakStringRemoval (t : Transaction) (s : Nat) : Transaction :=
  t.LogInternedString ⟨s, .kWeakString, .kRemove⟩

/-- Transaction::RecordResolveString (transaction.cc lines 262-269):
emplace_back, append order. -/
def Transaction.RecordResolveString (t : Transaction) (dex_cache string_idx : Nat) :
    Transaction :=
  { t with resolve_string_logs := t.resolve_string_logs ++ [⟨dex_cache, string_idx⟩] }

/-- Heap effect of the loop in Transaction::UndoObjectModifications
(transaction.cc lines 312-319): each ObjectLog undone against its object. -/
def undoObjectLogsH (logs : List (Nat × ObjectLog)) (h : Heap) : Heap :=
  logs.foldl
    (fun h p => { h with objects := updN h.objects p.1 (p.2.Undo (h.objects p.1)) }) h

/-- Heap effect of the loop in Transaction::UndoArrayModifications
(transaction.cc lines 321-328). -/
def undoArrayLogsH (logs : List (Nat × ArrayLog)) (h : Heap) : Heap :=
  logs.foldl
    (fun h p => { h with objects := updN h.objects p.1 (p.2.Undo (h.objects p.1)) }) h

/-- Table effect of the loop in
Transaction::UndoInternStringTableModifications (transaction.cc lines
330-338): undo each record in sequence order, which is most-recent-first. -/
def undoInternTable (logs : List InternStringLog) (tb : InternTable) : InternTable :=
  logs.foldl (fun tb log => log.Undo tb) tb

/-- Heap effect of Transaction::UndoInternStringTableModifications. -/
def undoInternLogsH (logs : List InternStringLog) (h : Heap) : Heap :=
  { h with internTable := undoInternTable logs h.internTable }

/-- Heap effect of the loop in Transaction::UndoResolveStringModifications
(transaction.cc lines 340-345), in append order. -/
def undoResolveLogsH (logs : List ResolveStringLog) (h : Heap) : Heap :=
  { h with dexCaches := logs.foldl (fun cs log => log.Undo cs) h.dexCaches }

/-- Transaction::UndoObjectModifications: drain every ObjectLog, then clear
the collection. -/
def Transaction.UndoObjectModifications (t : Transaction) (h : Heap) : Transaction × Heap :=
  ({ t with object_logs := [] }, undoObjectLogsH t.object_logs h)

/-- Transaction::UndoArrayModifications: drain every ArrayLog, then clear
the collection. -/
def Transaction.UndoArrayModifications (t : Transaction) (h : Heap) : Transaction × Heap :=
  ({ t with array_logs := [] }, undoArrayLogsH t.array_logs h)

/-- Transaction::UndoInternStringTableModifications: drain the intern
string log most-recent-first, then clear it. -/
def Transaction.UndoInternStringTableModifications (t : Transaction) (h : Heap) :
    Transaction × Heap :=
  ({ t with intern_string_logs := [] }, undoInternLogsH t.intern_string_logs h)

/-- Transaction::UndoResolveStringModifications: drain the resolve string
log in append order, then clear it. -/
def Transaction.UndoResolveStringModifications (t : Transaction) (h : Heap) :
    Transaction × Heap :=
  ({ t with resolve_string_logs := [] }, undoResolveLogsH t.resolve_string_logs h)

/-- Transaction::Rollback (transaction.cc lines 298-310): set rolling_back,
run the four drain-and-clear phases in their fixed order, clear
rolling_back. -/
def Transaction.Rollback (t : Transaction) (h : Heap) : Transaction × Heap :=
  let t1 : Transaction := { t with rolling_back := true }
  let s1 := t1.UndoObjectModifications h
  let s2 := s1.1.UndoArrayModifications s1.2
  let s3 := s2.1.UndoInternStringTableModifications s2.2
  let s4 := s3.1.UndoResolveStringModifications s3.2
  ({ s4.1 with rolling_back := false }, s4.2)

/-- The moving-roots list built by the first loop of VisitObjectLogs /
VisitArrayLogs (transaction.cc lines 361-370 and 389-397): the pairs
(old identity, relocated identity) for every key the visitor moves, in
collection order. -/
def movingOf {α : Type} (m : List (Nat × α)) (visitor : Nat → Nat) : List (Nat × Nat) :=
  m.filterMap (fun p => if visitor p.1 ≠ p.1 then some (p.1, visitor p.1) else none)

/-- The re-keying loop of VisitObjectLogs / VisitArrayLogs (transaction.cc
lines 372-381 and 399-408): for each moving pair, CHECK the old key is
present, CHECK the new key is absent, emplace the entry at the new key and
erase the old key.  A failed CHECK is modelled as none. -/
def rekeyAll {α : Type} : List (Nat × Nat) → List (Nat × α) → Option (List (Nat × α))
  | [], m => some m
  | q :: rest, m =>
    match alookup m q.1 with
    | none => none
    | some v =>
      match alookup m q.2 with
      | some _ => none
      | none => rekeyAll rest (eraseKey m q.1 ++ [(q.2, v)])

/-- Transaction::VisitObjectLogs (transaction.cc lines 356-382): visit
every log's reference values, collect moving roots, then re-key. -/
def Transaction.VisitObjectLogs (t : Transaction) (visitor : Nat → Nat) : Option Transaction :=
  let visited := t.object_logs.map (fun p => (p.1, p.2.VisitRoots visitor))
  match rekeyAll (movingOf visited visitor) visited with
  | none => none
  | some m => some { t with object_logs := m }

/-- Transaction::VisitArrayLogs (transaction.cc lines 384-409): CHECK no
logged array is an object array, collect moving roots, then re-key. -/
def Transaction.VisitArrayLogs (t : Transaction) (h : Heap) (visitor : Nat → Nat) :
    Option Transaction :=
  if t.array_logs.all (fun p => decide ((h.objects p.1).componentType ≠ .kPrimNot)) then
    match rekeyAll (movingOf t.array_logs visitor) t.array_logs with
    | none => none
    | some m => some { t with array_logs := m }
  else none

/-- InternStringLog::VisitRoots (transaction.cc lines 619-621). -/
def InternStringLog.VisitRoots (log : InternStringLog) (visitor : Nat → Nat) :
    InternStringLog :=
  { log with str := visitor log.str }

/-- ResolveStringLog::VisitRoots (transaction.cc lines 635-637). -/
def ResolveStringLog.VisitRoots (log : ResolveStringLog) (visitor : Nat → Nat) :
    ResolveStringLog :=
  { log with dex_cache := visitor log.dex_cache }

/-- Transaction::VisitRoots (transaction.cc lines 347-354): the root class,
then the four log collections. -/
def Transaction.VisitRoots (t : Transaction) (h : Heap) (visitor : Nat → Nat) :
    Option Transaction :=
  let t0 : Transaction := { t with root := visitor t.root }
  match t0.VisitObjectLogs visitor with
  | none => none
  | some t1 =>
    match t1.VisitArrayLogs h visitor with
    | none => none
    | some t2 =>
      some { t2 with
        intern_string_logs := t2.intern_string_logs.map (fun log => log.VisitRoots visitor),
        resolve_string_logs := t2.resolve_string_logs.map (fun log => log.VisitRoots visitor) }

/-- A concrete heap used by the witnesses: identity 1 is a float array,
identity 5 is a class object, identity 9 is in the boot image space. -/
def hTest : Heap :=
  { objects := fun r =>
      if r = 1 then
        { isClass := false, isArrayInstance := true, klass := 0,
          componentType := .kPrimFloat, fields := fun _ => 0, elements := fun _ => 0 }
      else if r = 5 then
        { isClass := true, isArrayInstance := false, klass := 0,
          componentType := .kPrimNot, fields := fun _ => 0, elements := fun _ => 0 }
      else
        { isClass := false, isArrayInstance := false, klass := 0,
          componentType := .kPrimInt, fields := fun _ => 0, elements := fun _ => 0 }
    ObjectIsInBootImageSpace := fun r => decide (r = 9)
    bootImageSpacesEmpty := false
    CanReferenceInBootImageExtension := fun k => decide (k = 5)
    internTable := { strong := [3], weak := [] }
    dexCaches := fun _ _ => some 0 }

/-! Helper lemmas about the association-list model. -/

theorem alookup_append_self {α : Type} (l : List (Nat × α)) (k : Nat) (v : α)
    (h : alookup l k = none) : alookup (l ++ [(k, v)]) k = some v := by
  induction l with
  | nil => simp [alookup]
  | cons p rest ih =>
    by_cases hp : p.1 = k
    · simp [alookup, hp] at h
    · simp only [alookup, List.cons_append, if_neg hp] at h ⊢
      exact ih h

theorem logValue_logValue (log : ObjectLog) (k k' : FieldValueKind) (off v vol v' vol') :
    (log.LogValue k off v vol).LogValue k' off v' vol' = log.LogValue k off v vol := by
  unfold ObjectLog.LogValue
  cases h : alookup log.field_values off with
  | some fv => simp [h]
  | none => simp [h, alookup_append_self log.field_values off ⟨v, vol, k⟩ h]

theorem arrayLogValue_logValue (log : ArrayLog) (i v v' : Nat) :
    (log.LogValue i v).LogValue i v' = log.LogValue i v := by
  unfold ArrayLog.LogValue
  cases h : alookup log.array_values i with
  | some w => simp [h]
  | none => simp [h, alookup_append_self log.array_values i v h]

theorem alistUpdate_alistUpdate {α : Type} (d : α) (f g : α → α) (m : List (Nat × α))
    (k : Nat) :
    alistUpdate d g (alistUpdate d f m k) k = alistUpdate d (fun v => g (f v)) m k := by
  induction m with
  | nil => simp [alistUpdate]
  | cons p rest ih =>
    by_cases hp : p.1 = k
    · simp [alistUpdate, hp]
    · simp [alistUpdate, hp, ih]

theorem alistUpdate_congr {α : Type} (d : α) (f g : α → α) (m : List (Nat × α)) (k : Nat)
    (hfg : ∀ v, f v = g v) : alistUpdate d f m k = alistUpdate d g m k := by
  induction m with
  | nil => simp [alistUpdate, hfg]
  | cons p rest ih =>
    by_cases hp : p.1 = k
    · simp [alistUpdate, hp, hfg]
    · simp [alistUpdate, hp, ih]

theorem logFieldValue_logFieldValue (t : Transaction) (obj off : Nat)
    (k k' : FieldValueKind) (a b : Nat) (u w : Bool) :
    (t.logFieldValue obj off k a u).logFieldValue obj off k' b w =
      t.logFieldValue obj off k a u := by
  simp only [Transaction.logFieldValue, alistUpdate_alistUpdate]
  congr 1
  exact alistUpdate_congr _ _ _ _ _ (fun log => logValue_logValue log k k' off a u b w)

theorem recordWriteField_eq_logFieldValue (t : Transaction) (k : FieldValueKind)
    (obj off v : Nat) (vol : Bool) :
    t.RecordWriteField k obj off v vol = t.logFieldValue obj off k (recordConv k v) vol := by
  cases k <;> rfl

/-- Claim C1: first-write-wins — for a given object and field offset (and
a given array and element index), a second RecordWrite* call for the same
location leaves the whole log, and hence the rollback result, unchanged:
only the value supplied by the first recorded write is retained. -/
theorem c1_first_write_wins (t : Transaction) (k k' : FieldValueKind)
    (obj off v v' a i w w' : Nat) (vol vol' : Bool) (h : Heap) :
    ((t.RecordWriteField k obj off v vol).RecordWriteField k' obj off v' vol' =
      t.RecordWriteField k obj off v vol) ∧
    ((t.RecordWriteArray a i w).RecordWriteArray a i w' = t.RecordWriteArray a i w) ∧
    (((t.RecordWriteField k obj off v vol).RecordWriteField k' obj off v' vol').Rollback h =
      (t.RecordWriteField k obj off v vol).Rollback h) ∧
    (((t.RecordWriteArray a i w).RecordWriteArray a i w').Rollback h =
      (t.RecordWriteArray a i w).Rollback h) := by
  have hf : (t.RecordWriteField k obj off v vol).RecordWriteField k' obj off v' vol' =
      t.RecordWriteField k obj off v vol := by
    rw [recordWriteField_eq_logFieldValue, recordWriteField_eq_logFieldValue,
      logFieldValue_logFieldValue]
  have ha : (t.RecordWriteArray a i w).RecordWriteArray a i w' = t.RecordWriteArray a i w := by
    simp only [Transaction.RecordWriteArray, alistUpdate_alistUpdate]
    congr 1
    exact alistUpdate_congr _ _ _ _ _ (fun log => arrayLogValue_logValue log i w w')
  exact ⟨hf, ha, by rw [hf], by rw [ha]⟩

/-- Claim C3: Rollback performs the four drain-and-clear phases in the
fixed order object logs, array logs, intern string logs, resolve string
logs; afterwards all four log collections are empty, rolling_back is clear
again and the other transaction state is untouched. -/
theorem c3_rollback_phases (t : Transaction) (h : Heap) :
    ((t.Rollback h).1.object_logs = []) ∧
    ((t.Rollback h).1.array_logs = []) ∧
    ((t.Rollback h).1.intern_string_logs = []) ∧
    ((t.Rollback h).1.resolve_string_logs = []) ∧
    ((t.Rollback h).1.rolling_back = false) ∧
    ((t.Rollback h).1.aborted = t.aborted) ∧
    ((t.Rollback h).1.abort_message = t.abort_message) ∧
    ((t.Rollback h).2 =
      undoResolveLogsH t.resolve_string_logs
        (undoInternLogsH t.intern_string_logs
          (undoArrayLogsH t.array_logs (undoObjectLogsH t.object_logs h)))) :=
  ⟨rfl, rfl, rfl, rfl, rfl, rfl, rfl, rfl⟩

/-- Claim C6: WriteConstraint blocks every object in the boot image space
regardless of mode, and otherwise blocks exactly the strict-mode writes to
a class object other than the root class. -/
theorem c6_write_constraint (t : Transaction) (h : Heap) (obj : Nat) :
    t.WriteConstraint h obj = true ↔
      (h.ObjectIsInBootImageSpace obj = true ∨
        (t.strict = true ∧ (h.objects obj).isClass = true ∧ obj ≠ t.root)) := by
  unfold Transaction.WriteConstraint Transaction.IsStrict
  by_cases hb : h.ObjectIsInBootImageSpace obj <;>
    simp [hb, Bool.and_eq_true, and_assoc]

/-- Witness for C6: a class object outside the image, distinct from the
root, is blocked in strict mode. -/
theorem c6_write_constraint_witness :
    (Transaction.create true 0).WriteConstraint hTest 5 = true :=
  (c6_write_constraint (Transaction.create true 0) hTest 5).mpr
    (Or.inr ⟨rfl, by decide, by decide⟩)

/-- Claim C7: WriteValueConstraint permits null always, permits everything
in strict mode, permits everything when the heap has no boot image spaces,
and otherwise blocks exactly the values whose class the boot image
extension may not reference. -/
theorem c7_write_value_constraint (t : Transaction) (h : Heap) (value : Option Nat) :
    t.WriteValueConstraint h value = true ↔
      (∃ v, value = some v ∧ t.strict = false ∧ h.bootImageSpacesEmpty = false ∧
        h.CanReferenceInBootImageExtension (classOf h v) = false) := by
  cases value with
  | none => simp [Transaction.WriteValueConstraint]
  | some v =>
    unfold Transaction.WriteValueConstraint Transaction.IsStrict
    by_cases hs : t.strict <;> by_cases he : h.bootImageSpacesEmpty <;>
      simp [hs, he]

/-- Witness for C7: in non-strict mode with a boot image extension, a
value whose class may not be referenced is blocked. -/
theorem c7_write_value_constraint_witness :
    (Transaction.create false 0).WriteValueConstraint hTest (some 2) = true :=
  (c7_write_value_constraint (Transaction.create false 0) hTest (some 2)).mpr
    ⟨2, rfl, rfl, rfl, by decide⟩

/-- Claim C8: Abort is idempotent with first-message-wins — the first call
sets the aborted flag and stores its message, later calls change nothing. -/
theorem c8_abort_idempotent (t : Transaction) (m1 m2 : String) :
    ((t.Abort m1).Abort m2 = t.Abort m1) ∧
    ((t.Abort m1).IsAborted = true) ∧
    (t.IsAborted = false →
      (t.Abort m1).GetAbortMessage = m1 ∧ ((t.Abort m1).Abort m2).GetAbortMessage = m1) := by
  by_cases h : t.aborted <;>
    simp [Transaction.Abort, Transaction.IsAborted, Transaction.GetAbortMessage, h]

/-- Witness for C8: aborting twice keeps the first message. -/
theorem c8_abort_idempotent_witness :
    (((Transaction.create false 0).Abort "first").Abort "second").GetAbortMessage = "first" :=
  ((c8_abort_idempotent (Transaction.create false 0) "first" "second").2.2 (by rfl)).2

/-- Claim C10: a freshly constructed transaction has no abort flag, no
rollback flag, an empty abort message, no reentrancy-guard reason and four
empty log collections, so rolling it back leaves the heap unchanged. -/
theorem c10_fresh_transaction (strict : Bool) (root : Nat) (h : Heap) :
    ((Transaction.create strict root).IsAborted = false) ∧
    ((Transaction.create strict root).IsRollingBack = false) ∧
    ((Transaction.create strict root).GetAbortMessage = "") ∧
    ((Transaction.create strict root).assert_no_new_records_reason = none) ∧
    ((Transaction.create strict root).object_logs = []) ∧
    ((Transaction.create strict root).array_logs = []) ∧
    ((Transaction.create strict root).intern_string_logs = []) ∧
    ((Transaction.create strict root).resolve_string_logs = []) ∧
    (((Transaction.create strict root).Rollback h).2 = h) :=
  ⟨rfl, rfl, rfl, rfl, rfl, rfl, rfl, rfl, rfl⟩

/-- Counterexample to claim C2 as stated: for a float-component array, the
undo of a logged write does not store back the logged raw value
reinterpreted at the element width.  Pre-transaction element bit pattern 1
is logged; rollback stores the bit pattern of static_cast to float of 1
(1.0f, bits 1065353216), not the pattern 1, so the restoration is not
byte-identical. -/
theorem c2_bit_exact_counterexample :
    ((((Transaction.create false 0).RecordWriteArray 1 0 1).Rollback
        hTest).2.objects 1).elements 0 = 1065353216 ∧
    ¬((((Transaction.create false 0).RecordWriteArray 1 0 1).Rollback
        hTest).2.objects 1).elements 0 = 1 % 2 ^ 32 := by
  constructor <;> decide

/-- Claim C2 (amended): undo is bit-exact for all seven field kinds (the
stored bits equal the originally supplied typed value, with the logged
volatility) and for the six integral array component types; for float and
double component types the logged 64-bit raw value is converted numerically
by static_cast to the floating-point type, not reinterpreted, so the
restoration is not byte-identical in general. -/
theorem c2_bit_exact_amended :
    (∀ (k : FieldValueKind) (off v : Nat) (vol : Bool), v < 2 ^ kindWidth k →
      ObjectLog.UndoFieldWrite off ⟨recordConv k v, vol, k⟩ =
        ⟨k, off, v, vol⟩) ∧
    (∀ (ty : PrimitiveType) (i v : Nat), isIntegralArrayType ty = true →
      v < 2 ^ primWidth ty → ArrayLog.UndoArrayWrite ty i v = some (i, v)) ∧
    (∀ (i v : Nat),
      ArrayLog.UndoArrayWrite .kPrimFloat i v = some (i, fp32OfUint64 v) ∧
      ArrayLog.UndoArrayWrite .kPrimDouble i v = some (i, fp64OfUint64 v)) := by
  refine ⟨?_, ?_, fun i v => ⟨rfl, rfl⟩⟩
  · intro k off v vol hv
    have hval : fieldCast k (recordConv k v) = v := by
      cases k <;> simp only [fieldCast, recordConv, sextTo64, kindWidth] at hv ⊢ <;>
        first
        | omega
        | (split <;> omega)
    simp [ObjectLog.UndoFieldWrite, hval]
  · intro ty i v hty hv
    have hval : v % 2 ^ primWidth ty = v := Nat.mod_eq_of_lt hv
    cases ty <;> simp_all [ArrayLog.UndoArrayWrite, isIntegralArrayType, primWidth]

/-- Witness for the amended C2: a byte field round-trips through sign
extension and truncation, and a short array element round-trips. -/
theorem c2_bit_exact_amended_witness :
    ObjectLog.UndoFieldWrite 4 ⟨recordConv .kByte 200, true, .kByte⟩ =
      ⟨.kByte, 4, 200, true⟩ ∧
    ArrayLog.UndoArrayWrite .kPrimShort 3 65535 = some (3, 65535) :=
  ⟨c2_bit_exact_amended.1 .kByte 4 200 true (by decide),
   c2_bit_exact_amended.2.1 .kPrimShort 3 65535 (by decide) (by decide)⟩

/-- Claim C4: the four Record*String* entry points prepend their record,
so the sequence is most-recent-first; undo of an insert removes the string
from the named table and undo of a remove re-inserts it; recording
insert(S) then remove(S) and rolling the intern log back first re-inserts
S, then removes it, leaving S absent and the table as before. -/
theorem c4_intern_string_undo (t : Transaction) (tbl : InternTable) (s : Nat) :
    ((t.RecordStrongStringInsertion s).intern_string_logs =
      ⟨s, .kStrongString, .kInsert⟩ :: t.intern_string_logs) ∧
    ((t.RecordWeakStringInsertion s).intern_string_logs =
      ⟨s, .kWeakString, .kInsert⟩ :: t.intern_string_logs) ∧
    ((t.RecordStrongStringRemoval s).intern_string_logs =
      ⟨s, .kStrongString, .kRemove⟩ :: t.intern_string_logs) ∧
    ((t.RecordWeakStringRemoval s).intern_string_logs =
      ⟨s, .kWeakString, .kRemove⟩ :: t.intern_string_logs) ∧
    (InternStringLog.Undo ⟨s, .kStrongString, .kInsert⟩ tbl =
      { tbl with strong := removeStr s tbl.strong }) ∧
    (InternStringLog.Undo ⟨s, .kWeakString, .kInsert⟩ tbl =
      { tbl with weak := removeStr s tbl.weak }) ∧
    (InternStringLog.Undo ⟨s, .kStrongString, .kRemove⟩ tbl =
      { tbl with strong := insertStr s tbl.strong }) ∧
    (InternStringLog.Undo ⟨s, .kWeakString, .kRemove⟩ tbl =
      { tbl with weak := insertStr s tbl.weak }) ∧
    (t.intern_string_logs = [] → s ∉ tbl.strong →
      undoInternTable
          ((t.RecordStrongStringInsertion s).RecordStrongStringRemoval s).intern_string_logs
          tbl = tbl ∧
      s ∉ (undoInternTable
          ((t.RecordStrongStringInsertion s).RecordStrongStringRemoval s).intern_string_logs
          tbl).strong) := by
  refine ⟨rfl, rfl, rfl, rfl, rfl, rfl, rfl, rfl, ?_⟩
  intro hnil hs
  have hlogs :
      ((t.RecordStrongStringInsertion s).RecordStrongStringRemoval s).intern_string_logs =
        [⟨s, .kStrongString, .kRemove⟩, ⟨s, .kStrongString, .kInsert⟩] := by
    simp [Transaction.RecordStrongStringInsertion, Transaction.RecordStrongStringRemoval,
      Transaction.LogInternedString, hnil]
  rw [hlogs]
  have htb :
      undoInternTable [⟨s, .kStrongString, .kRemove⟩, ⟨s, .kStrongString, .kInsert⟩] tbl
        = tbl := by
    simp [undoInternTable, InternStringLog.Undo, InternTable.InsertStrongFromTransaction,
      InternTable.RemoveStrongFromTransaction, insertStr, removeStr, hs]
  refine ⟨htb, ?_⟩
  rw [htb]
  exact hs

/-- Witness for C4: the insert-then-remove scenario rolled back on a
concrete table without the string leaves the table unchanged. -/
theorem c4_intern_string_undo_witness :
    undoInternTable
        (((Transaction.create false 0).RecordStrongStringInsertion
          7).RecordStrongStringRemoval 7).intern_string_logs
        ⟨[3], []⟩ = ⟨[3], []⟩ :=
  ((c4_intern_string_undo (Transaction.create false 0) ⟨[3], []⟩ 7).2.2.2.2.2.2.2.2
    rfl (by decide)).1

theorem foldl_apply_fields_frame (ops : List FieldWriteOp) (obj : ObjContent) (o : Nat)
    (h : ∀ op ∈ ops, op.offset ≠ o) :
    (ops.foldl applyFieldWriteOp obj).fields o = obj.fields o := by
  induction ops generalizing obj with
  | nil => rfl
  | cons op rest ih =>
    have h1 : op.offset ≠ o := h op (List.mem_cons_self op rest)
    rw [List.foldl_cons, ih _ (fun q hq => h q (List.mem_cons_of_mem op hq))]
    simp only [applyFieldWriteOp, updN]
    exact if_neg (fun e => h1 e.symm)

/-- Claim C5: ObjectLog::Undo never stores to the class-identity offset,
nor to the length offset when the object is an array instance, even when
entries were logged there; every other logged offset is stored to, so the
protected slots keep their pre-rollback contents. -/
theorem c5_protected_slots (log : ObjectLog) (obj : ObjContent) :
    (∀ op ∈ log.UndoWrites obj,
      op.offset ≠ ClassOffset ∧ (obj.isArrayInstance = true → op.offset ≠ LengthOffset)) ∧
    (∀ p ∈ log.field_values, p.1 ≠ ClassOffset →
      ¬(obj.isArrayInstance = true ∧ p.1 = LengthOffset) →
      ObjectLog.UndoFieldWrite p.1 p.2 ∈ log.UndoWrites obj) ∧
    ((log.Undo obj).fields ClassOffset = obj.fields ClassOffset) ∧
    (obj.isArrayInstance = true →
      (log.Undo obj).fields LengthOffset = obj.fields LengthOffset) := by
  have h1 : ∀ op ∈ log.UndoWrites obj,
      op.offset ≠ ClassOffset ∧ (obj.isArrayInstance = true → op.offset ≠ LengthOffset) := by
    intro op hop
    rw [ObjectLog.UndoWrites, List.mem_filterMap] at hop
    obtain ⟨p, hp, hf⟩ := hop
    by_cases hc : p.1 = ClassOffset
    · rw [if_pos hc] at hf
      exact absurd hf (by simp)
    · rw [if_neg hc] at hf
      by_cases hl : obj.isArrayInstance = true ∧ p.1 = LengthOffset
      · rw [if_pos hl] at hf
        exact absurd hf (by simp)
      · rw [if_neg hl] at hf
        cases hf
        exact ⟨hc, fun ha hL => hl ⟨ha, hL⟩⟩
  refine ⟨h1, ?_, ?_, ?_⟩
  · intro p hp hc hl
    rw [ObjectLog.UndoWrites, List.mem_filterMap]
    exact ⟨p, hp, by rw [if_neg hc, if_neg hl]⟩
  · simp only [ObjectLog.Undo]
    exact foldl_apply_fields_frame _ _ _ (fun op hop => (h1 op hop).1)
  · intro ha
    simp only [ObjectLog.Undo]
    exact foldl_apply_fields_frame _ _ _ (fun op hop => (h1 op hop).2 ha)

/-- Witness for C5: a logged non-protected offset is stored to by Undo. -/
theorem c5_protected_slots_witness :
    ObjectLog.UndoFieldWrite 12 ⟨9, false, .k32Bits⟩ ∈
      (ObjectLog.mk [(12, ⟨9, false, .k32Bits⟩)]).UndoWrites default :=
  (c5_protected_slots ⟨[(12, ⟨9, false, .k32Bits⟩)]⟩ default).2.1
    (12, ⟨9, false, .k32Bits⟩) (by decide) (by decide) (by decide)

/-! Association-list lemmas for the re-keying protocol. -/

theorem alookup_eq_none_iff {α : Type} (m : List (Nat × α)) (k : Nat) :
    alookup m k = none ↔ k ∉ keysOf m := by
  induction m with
  | nil => simp [alookup, keysOf]
  | cons p rest ih =>
    by_cases hp : p.1 = k
    · simp [alookup, hp, keysOf]
    · simp [alookup, hp, Ne.symm hp, keysOf, ih]

theorem alookup_isSome_of_mem {α : Type} (m : List (Nat × α)) (k : Nat)
    (h : k ∈ keysOf m) : ∃ v, alookup m k = some v := by
  cases hv : alookup m k with
  | some v => exact ⟨v, rfl⟩
  | none => exact absurd h ((alookup_eq_none_iff m k).mp hv)

theorem alookup_of_mem_nodup {α : Type} (m : List (Nat × α)) (p : Nat × α)
    (hnd : (keysOf m).Nodup) (hp : p ∈ m) : alookup m p.1 = some p.2 := by
  induction m with
  | nil => cases hp
  | cons q rest ih =>
    simp only [keysOf, List.map_cons] at hnd
    rcases List.mem_cons.mp hp with rfl | hp'
    · simp [alookup]
    · have hne : q.1 ≠ p.1 := by
        intro e
        exact (List.nodup_cons.mp hnd).1 (e ▸ List.mem_map_of_mem Prod.fst hp')
      simp only [alookup, if_neg hne]
      exact ih (List.nodup_cons.mp hnd).2 hp'

theorem alookup_append_left {α : Type} (l1 l2 : List (Nat × α)) (k : Nat) (v : α)
    (h : alookup l1 k = some v) : alookup (l1 ++ l2) k = some v := by
  induction l1 with
  | nil => simp [alookup] at h
  | cons p rest ih =>
    by_cases hp : p.1 = k
    · simp only [alookup, if_pos hp] at h
      simp only [List.cons_append, alookup, if_pos hp]
      exact h
    · simp only [alookup, if_neg hp] at h
      simp only [List.cons_append, alookup, if_neg hp]
      exact ih h

theorem alookup_append_right {α : Type} (l1 l2 : List (Nat × α)) (k : Nat)
    (h : alookup l1 k = none) : alookup (l1 ++ l2) k = alookup l2 k := by
  induction l1 with
  | nil => simp
  | cons p rest ih =>
    by_cases hp : p.1 = k
    · simp [alookup, hp] at h
    · simp only [alookup, if_neg hp] at h
      simp only [List.cons_append, alookup, if_neg hp]
      exact ih h

theorem alookup_eraseKey {α : Type} (m : List (Nat × α)) (o j : Nat) :
    alookup (eraseKey m o) j = if j = o then none else alookup m j := by
  induction m with
  | nil => simp [eraseKey, alookup]
  | cons p rest ih =>
    by_cases hp : p.1 = o
    · rw [eraseKey, if_pos hp, ih]
      by_cases hj : j = o
      · rw [if_pos hj, if_pos hj]
      · rw [if_neg hj, if_neg hj, alookup,
          if_neg (fun e : p.1 = j => hj (by rw [← e]; exact hp))]
    · rw [eraseKey, if_neg hp]
      by_cases hpj : p.1 = j
      · have hj : ¬(j = o) := fun e => hp (by rw [hpj]; exact e)
        rw [alookup, if_pos hpj, if_neg hj, alookup, if_pos hpj]
      · rw [alookup, if_neg hpj, ih]
        by_cases hj : j = o
        · rw [if_pos hj, if_pos hj]
        · rw [if_neg hj, if_neg hj, alookup, if_neg hpj]

theorem mem_keysOf_eraseKey {α : Type} (m : List (Nat × α)) (o j : Nat) :
    j ∈ keysOf (eraseKey m o) ↔ (j ∈ keysOf m ∧ j ≠ o) := by
  induction m with
  | nil => simp [eraseKey, keysOf]
  | cons p rest ih =>
    by_cases hp : p.1 = o
    · rw [eraseKey, if_pos hp]
      simp only [keysOf, List.map_cons, List.mem_cons] at ih ⊢
      rw [ih]
      constructor
      · exact fun ⟨h1, h2⟩ => ⟨Or.inr h1, h2⟩
      · rintro ⟨(rfl | h1), h2⟩
        · exact absurd hp h2
        · exact ⟨h1, h2⟩
    · rw [eraseKey, if_neg hp]
      simp only [keysOf, List.map_cons, List.mem_cons] at ih ⊢
      rw [ih]
      constructor
      · rintro (rfl | ⟨h1, h2⟩)
        · exact ⟨Or.inl rfl, fun e => hp (by rw [← e])⟩
        · exact ⟨Or.inr h1, h2⟩
      · rintro ⟨(rfl | h1), h2⟩
        · exact Or.inl rfl
        · exact Or.inr ⟨h1, h2⟩

theorem nodup_keysOf_eraseKey {α : Type} (m : List (Nat × α)) (o : Nat)
    (h : (keysOf m).Nodup) : (keysOf (eraseKey m o)).Nodup := by
  induction m with
  | nil => simp [eraseKey, keysOf]
  | cons p rest ih =>
    simp only [keysOf, List.map_cons] at h
    obtain ⟨h1, h2⟩ := List.nodup_cons.mp h
    by_cases hp : p.1 = o
    · rw [eraseKey, if_pos hp]
      exact ih h2
    · rw [eraseKey, if_neg hp]
      simp only [keysOf, List.map_cons]
      refine List.nodup_cons.mpr ⟨?_, ih h2⟩
      intro hmem
      exact h1 ((mem_keysOf_eraseKey rest o p.1).mp hmem).1

theorem rekeyAll_spec {α : Type} (pairs : List (Nat × Nat)) (m : List (Nat × α))
    (hP1 : (pairs.map Prod.fst).Nodup)
    (hP2 : (pairs.map Prod.snd).Nodup)
    (hP3 : ∀ q ∈ pairs, q.1 ∈ keysOf m)
    (hP4 : ∀ q ∈ pairs, q.2 ∉ keysOf m)
    (hP5 : ∀ q ∈ pairs, q.2 ∉ pairs.map Prod.fst)
    (hP6 : (keysOf m).Nodup) :
    ∃ m', rekeyAll pairs m = some m' ∧
      (∀ j, j ∉ pairs.map Prod.fst → j ∉ pairs.map Prod.snd →
        alookup m' j = alookup m j) ∧
      (∀ q ∈ pairs, alookup m' q.2 = alookup m q.1) ∧
      (∀ q ∈ pairs, alookup m' q.1 = none) := by
  induction pairs generalizing m with
  | nil =>
    exact ⟨m, rfl, fun j _ _ => rfl, fun q hq => absurd hq (List.not_mem_nil q),
      fun q hq => absurd hq (List.not_mem_nil q)⟩
  | cons q0 rest ih =>
    obtain ⟨o, n⟩ := q0
    have hP1h : o ∉ rest.map Prod.fst := (List.nodup_cons.mp hP1).1
    have hP1t : (rest.map Prod.fst).Nodup := (List.nodup_cons.mp hP1).2
    have hP2h : n ∉ rest.map Prod.snd := (List.nodup_cons.mp hP2).1
    have hP2t : (rest.map Prod.snd).Nodup := (List.nodup_cons.mp hP2).2
    have hoK : o ∈ keysOf m := hP3 (o, n) (List.mem_cons_self _ _)
    obtain ⟨v, hv⟩ := alookup_isSome_of_mem m o hoK
    have hnK : n ∉ keysOf m := hP4 (o, n) (List.mem_cons_self _ _)
    have hn : alookup m n = none := (alookup_eq_none_iff m n).mpr hnK
    have hno : n ≠ o := fun e => hnK (e ▸ hoK)
    have hnfull : n ∉ List.map Prod.fst ((o, n) :: rest) :=
      hP5 (o, n) (List.mem_cons_self _ _)
    have hsing : ∀ j, alookup [(n, v)] j = if n = j then some v else none := fun _ => rfl
    -- lookup in the evolved collection after processing the head pair
    have hals : ∀ j, alookup (eraseKey m o ++ [(n, v)]) j =
        if j = n then some v else if j = o then none else alookup m j := by
      intro j
      by_cases hj : j = n
      · subst hj
        have h1 : alookup (eraseKey m o) j = none := by
          rw [alookup_eraseKey, if_neg hno]
          exact hn
        rw [alookup_append_right _ _ _ h1, hsing j]
        simp
      · by_cases hjo : j = o
        · have h1 : alookup (eraseKey m o) j = none := by
            rw [alookup_eraseKey, if_pos hjo]
          rw [alookup_append_right _ _ _ h1, hsing j,
            if_neg (fun e : n = j => hj e.symm), if_neg hj, if_pos hjo]
        · have h1 : alookup (eraseKey m o) j = alookup m j := by
            rw [alookup_eraseKey, if_neg hjo]
          rw [if_neg hj, if_neg hjo]
          cases hmj : alookup m j with
          | some w => exact alookup_append_left _ _ _ _ (h1.trans hmj)
          | none =>
            rw [alookup_append_right _ _ _ (h1.trans hmj), hsing j,
              if_neg (fun e : n = j => hj e.symm)]
    have hkeys1 : ∀ j, j ∈ keysOf (eraseKey m o ++ [(n, v)]) ↔
        ((j ∈ keysOf m ∧ j ≠ o) ∨ j = n) := by
      intro j
      have he : keysOf (eraseKey m o ++ [(n, v)]) = keysOf (eraseKey m o) ++ [n] := by
        simp [keysOf]
      rw [he, List.mem_append, List.mem_singleton]
      constructor
      · rintro (h1 | h2)
        · exact Or.inl ((mem_keysOf_eraseKey m o j).mp h1)
        · exact Or.inr h2
      · rintro (h1 | h2)
        · exact Or.inl ((mem_keysOf_eraseKey m o j).mpr h1)
        · exact Or.inr h2
    have hP3' : ∀ q ∈ rest, q.1 ∈ keysOf (eraseKey m o ++ [(n, v)]) := by
      intro q hq
      have h1 := hP3 q (List.mem_cons_of_mem _ hq)
      have h2 : q.1 ≠ o := fun e => hP1h (e ▸ List.mem_map_of_mem Prod.fst hq)
      exact (hkeys1 q.1).mpr (Or.inl ⟨h1, h2⟩)
    have hP4' : ∀ q ∈ rest, q.2 ∉ keysOf (eraseKey m o ++ [(n, v)]) := by
      intro q hq hmem
      rcases (hkeys1 q.2).mp hmem with ⟨h1, _⟩ | h2
      · exact hP4 q (List.mem_cons_of_mem _ hq) h1
      · exact hP2h (h2 ▸ List.mem_map_of_mem Prod.snd hq)
    have hP5' : ∀ q ∈ rest, q.2 ∉ rest.map Prod.fst := by
      intro q hq hmem
      exact hP5 q (List.mem_cons_of_mem _ hq)
        (show q.2 ∈ o :: rest.map Prod.fst from List.mem_cons_of_mem o hmem)
    have hnd1 : (keysOf (eraseKey m o ++ [(n, v)])).Nodup := by
      have h1 : (keysOf (eraseKey m o)).Nodup := nodup_keysOf_eraseKey m o hP6
      have h2 : n ∉ keysOf (eraseKey m o) :=
        fun hmem => hnK ((mem_keysOf_eraseKey m o n).mp hmem).1
      have he : keysOf (eraseKey m o ++ [(n, v)]) = keysOf (eraseKey m o) ++ [n] := by
        simp [keysOf]
      rw [he]
      refine List.Nodup.append h1 (List.nodup_singleton n) ?_
      intro x hx hx2
      rw [List.mem_singleton] at hx2
      exact h2 (hx2 ▸ hx)
    obtain ⟨m', hrun, ha, hb, hc⟩ := ih (eraseKey m o ++ [(n, v)]) hP1t hP2t hP3' hP4' hP5' hnd1
    have hstep : rekeyAll ((o, n) :: rest) m = rekeyAll rest (eraseKey m o ++ [(n, v)]) := by
      simp [rekeyAll, hv, hn]
    refine ⟨m', by rw [hstep]; exact hrun, ?_, ?_, ?_⟩
    · intro j hj1 hj2
      simp only [List.map_cons, List.mem_cons, not_or] at hj1 hj2
      rw [ha j hj1.2 hj2.2, hals j, if_neg hj2.1, if_neg hj1.1]
    · intro q hq
      rcases List.mem_cons.mp hq with rfl | hq'
      · show alookup m' n = alookup m o
        have h1 : n ∉ rest.map Prod.fst := by
          intro hmem
          exact hnfull (show n ∈ o :: rest.map Prod.fst from List.mem_cons_of_mem o hmem)
        rw [ha n h1 hP2h, hals n]
        simp [hv]
      · have h1 : q.1 ≠ o := fun e => hP1h (e ▸ List.mem_map_of_mem Prod.fst hq')
        have h2 : q.1 ≠ n := by
          intro e
          refine hnfull (show n ∈ o :: rest.map Prod.fst from ?_)
          exact List.mem_cons_of_mem o (e ▸ List.mem_map_of_mem Prod.fst hq')
        rw [hb q hq', hals q.1, if_neg h2, if_neg h1]
    · intro q hq
      rcases List.mem_cons.mp hq with rfl | hq'
      · show alookup m' o = none
        have h2 : o ∉ rest.map Prod.snd := by
          intro hmem
          obtain ⟨q', hq', he⟩ := List.mem_map.mp hmem
          refine hP5 q' (List.mem_cons_of_mem _ hq')
            (show q'.2 ∈ o :: rest.map Prod.fst from ?_)
          rw [he]
          exact List.mem_cons_self o _
        rw [ha o hP1h h2, hals o]
        simp [Ne.symm hno]
      · exact hc q hq'

theorem movingOf_cons {α : Type} (p : Nat × α) (rest : List (Nat × α)) (visitor : Nat → Nat) :
    movingOf (p :: rest) visitor =
      if visitor p.1 ≠ p.1 then (p.1, visitor p.1) :: movingOf rest visitor
      else movingOf rest visitor := by
  by_cases h : visitor p.1 ≠ p.1 <;> simp [movingOf, List.filterMap_cons, h]

theorem movingOf_fst_sublist {α : Type} (m : List (Nat × α)) (visitor : Nat → Nat) :
    ((movingOf m visitor).map Prod.fst).Sublist (keysOf m) := by
  induction m with
  | nil => simp [movingOf, keysOf]
  | cons p rest ih =>
    rw [movingOf_cons]
    by_cases hp : visitor p.1 ≠ p.1
    · rw [if_pos hp]
      exact ih.cons₂ p.1
    · rw [if_neg hp]
      exact ih.cons p.1

theorem movingOf_snd {α : Type} (m : List (Nat × α)) (visitor : Nat → Nat) :
    (movingOf m visitor).map Prod.snd =
      ((movingOf m visitor).map Prod.fst).map visitor := by
  induction m with
  | nil => rfl
  | cons p rest ih =>
    rw [movingOf_cons]
    by_cases hp : visitor p.1 ≠ p.1
    · rw [if_pos hp]
      simp only [List.map_cons]
      rw [ih]
    · rw [if_neg hp]
      exact ih

theorem mem_movingOf {α : Type} (m : List (Nat × α)) (visitor : Nat → Nat) (o n : Nat) :
    (o, n) ∈ movingOf m visitor ↔
      (o ∈ keysOf m ∧ visitor o ≠ o ∧ n = visitor o) := by
  induction m with
  | nil => simp [movingOf, keysOf]
  | cons p rest ih =>
    rw [movingOf_cons]
    by_cases hp : visitor p.1 ≠ p.1
    · rw [if_pos hp]
      simp only [List.mem_cons, ih, keysOf, List.map_cons, Prod.mk.injEq]
      constructor
      · rintro (⟨rfl, rfl⟩ | ⟨h1, h2, h3⟩)
        · exact ⟨Or.inl rfl, hp, rfl⟩
        · exact ⟨Or.inr h1, h2, h3⟩
      · rintro ⟨(rfl | h1), h2, rfl⟩
        · exact Or.inl ⟨rfl, rfl⟩
        · exact Or.inr ⟨h1, h2, rfl⟩
    · rw [if_neg hp]
      push_neg at hp
      simp only [ih, keysOf, List.map_cons, List.mem_cons]
      constructor
      · rintro ⟨h1, h2, h3⟩
        exact ⟨Or.inr h1, h2, h3⟩
      · rintro ⟨(rfl | h1), h2, rfl⟩
        · exact absurd hp h2
        · exact ⟨h1, h2, rfl⟩

/-- Combined specification of the Visit*Logs re-keying pass: when the map's
keys are distinct and the visitor relocates keys freshly and injectively,
the pass succeeds, every entry is found at its (possibly relocated) key
with its contents preserved, and every relocated old key is gone. -/
theorem rekey_moving_spec {α : Type} (m : List (Nat × α)) (visitor : Nat → Nat)
    (hnd : (keysOf m).Nodup)
    (hfresh : ∀ k ∈ keysOf m, visitor k ≠ k → visitor k ∉ keysOf m)
    (hinj : ∀ k ∈ keysOf m, ∀ j ∈ keysOf m, visitor k = visitor j → k = j) :
    ∃ m', rekeyAll (movingOf m visitor) m = some m' ∧
      (∀ p ∈ m, alookup m' (visitor p.1) = some p.2) ∧
      (∀ k ∈ keysOf m, visitor k ≠ k → alookup m' k = none) := by
  have hsubl : ((movingOf m visitor).map Prod.fst).Sublist (keysOf m) :=
    movingOf_fst_sublist m visitor
  have hsubO : ∀ x ∈ (movingOf m visitor).map Prod.fst, x ∈ keysOf m :=
    fun x hx => hsubl.subset hx
  have hmovedO : ∀ x ∈ (movingOf m visitor).map Prod.fst, visitor x ≠ x := by
    intro x hx
    obtain ⟨q, hq, he⟩ := List.mem_map.mp hx
    obtain ⟨o, n⟩ := q
    obtain ⟨_, h2, _⟩ := (mem_movingOf m visitor o n).mp hq
    exact he ▸ h2
  have hP1 : ((movingOf m visitor).map Prod.fst).Nodup := hnd.sublist hsubl
  have hP3 : ∀ q ∈ movingOf m visitor, q.1 ∈ keysOf m := by
    intro q hq
    obtain ⟨o, n⟩ := q
    exact ((mem_movingOf m visitor o n).mp hq).1
  have hP4 : ∀ q ∈ movingOf m visitor, q.2 ∉ keysOf m := by
    intro q hq
    obtain ⟨o, n⟩ := q
    obtain ⟨h1, h2, h3⟩ := (mem_movingOf m visitor o n).mp hq
    show n ∉ keysOf m
    rw [h3]
    exact hfresh o h1 h2
  have hP5 : ∀ q ∈ movingOf m visitor, q.2 ∉ (movingOf m visitor).map Prod.fst :=
    fun q hq hmem => hP4 q hq (hsubO _ hmem)
  have hP2 : ((movingOf m visitor).map Prod.snd).Nodup := by
    rw [movingOf_snd]
    refine List.Nodup.map_on ?_ hP1
    intro x hx y hy he
    exact hinj x (hsubO x hx) y (hsubO y hy) he
  obtain ⟨m', hrun, ha, hb, hc⟩ := rekeyAll_spec (movingOf m visitor) m hP1 hP2 hP3 hP4 hP5 hnd
  refine ⟨m', hrun, ?_, ?_⟩
  · intro p hp
    have hpk : p.1 ∈ keysOf m := List.mem_map_of_mem Prod.fst hp
    have hlook : alookup m p.1 = some p.2 := alookup_of_mem_nodup m p hnd hp
    by_cases hmove : visitor p.1 ≠ p.1
    · have hq : (p.1, visitor p.1) ∈ movingOf m visitor :=
        (mem_movingOf m visitor p.1 (visitor p.1)).mpr ⟨hpk, hmove, rfl⟩
      exact (hb (p.1, visitor p.1) hq).trans hlook
    · push_neg at hmove
      rw [hmove]
      have h1 : p.1 ∉ (movingOf m visitor).map Prod.fst :=
        fun hmem => (hmovedO p.1 hmem) hmove
      have h2 : p.1 ∉ (movingOf m visitor).map Prod.snd := by
        intro hmem
        obtain ⟨q, hq, he⟩ := List.mem_map.mp hmem
        exact hP4 q hq (he.symm ▸ hpk)
      rw [ha p.1 h1 h2]
      exact hlook
  · intro k hk hmove
    have hq : (k, visitor k) ∈ movingOf m visitor :=
      (mem_movingOf m visitor k (visitor k)).mpr ⟨hk, hmove, rfl⟩
    exact hc (k, visitor k) hq

theorem keysOf_map_value {α β : Type} (m : List (Nat × α)) (f : α → β) :
    keysOf (m.map (fun p => (p.1, f p.2))) = keysOf m := by
  induction m with
  | nil => rfl
  | cons p rest ih => simp [keysOf] at ih ⊢

/-- Claim C9: during root visiting, for every key of the object-log and
array-log collections that the visitor relocates (freshly and injectively,
as a collector's moved identities are), the log entry is found at the new
key with its contents preserved (the object log's reference values having
been visited), the old key is gone, and the collision CHECK passes. -/
theorem c9_visit_rekey (t : Transaction) (h : Heap) (visitor : Nat → Nat)
    (hO1 : (keysOf t.object_logs).Nodup)
    (hO2 : ∀ k ∈ keysOf t.object_logs, visitor k ≠ k → visitor k ∉ keysOf t.object_logs)
    (hO3 : ∀ k ∈ keysOf t.object_logs, ∀ j ∈ keysOf t.object_logs,
      visitor k = visitor j → k = j)
    (hA1 : (keysOf t.array_logs).Nodup)
    (hA2 : ∀ k ∈ keysOf t.array_logs, visitor k ≠ k → visitor k ∉ keysOf t.array_logs)
    (hA3 : ∀ k ∈ keysOf t.array_logs, ∀ j ∈ keysOf t.array_logs,
      visitor k = visitor j → k = j)
    (hA0 : ∀ p ∈ t.array_logs, (h.objects p.1).componentType ≠ PrimitiveType.kPrimNot) :
    (∃ t', t.VisitObjectLogs visitor = some t' ∧
      (∀ p ∈ t.object_logs,
        alookup t'.object_logs (visitor p.1) = some (p.2.VisitRoots visitor)) ∧
      (∀ k ∈ keysOf t.object_logs, visitor k ≠ k → alookup t'.object_logs k = none)) ∧
    (∃ t', t.VisitArrayLogs h visitor = some t' ∧
      (∀ p ∈ t.array_logs, alookup t'.array_logs (visitor p.1) = some p.2) ∧
      (∀ k ∈ keysOf t.array_logs, visitor k ≠ k → alookup t'.array_logs k = none)) := by
  constructor
  · -- object logs: the collection visited first, then re-keyed
    have hkeys : keysOf (t.object_logs.map (fun p => (p.1, p.2.VisitRoots visitor))) =
        keysOf t.object_logs := keysOf_map_value t.object_logs (fun log => log.VisitRoots visitor)
    obtain ⟨m', hrun, hb, hc⟩ :=
      rekey_moving_spec (t.object_logs.map (fun p => (p.1, p.2.VisitRoots visitor))) visitor
        (by rw [hkeys]; exact hO1)
        (by rw [hkeys]; exact hO2)
        (by rw [hkeys]; exact hO3)
    refine ⟨{ t with object_logs := m' }, ?_, ?_, ?_⟩
    · simp only [Transaction.VisitObjectLogs, hrun]
    · intro p hp
      have hmem : (p.1, p.2.VisitRoots visitor) ∈
          t.object_logs.map (fun p => (p.1, p.2.VisitRoots visitor)) :=
        List.mem_map_of_mem _ hp
      exact hb (p.1, p.2.VisitRoots visitor) hmem
    · intro k hk hmove
      exact hc k (by rw [hkeys]; exact hk) hmove
  · -- array logs: re-keyed directly
    obtain ⟨m', hrun, hb, hc⟩ := rekey_moving_spec t.array_logs visitor hA1 hA2 hA3
    have hguard : t.array_logs.all
        (fun p => decide ((h.objects p.1).componentType ≠ PrimitiveType.kPrimNot)) = true := by
      rw [List.all_eq_true]
      intro p hp
      exact decide_eq_true (hA0 p hp)
    refine ⟨{ t with array_logs := m' }, ?_, ?_, ?_⟩
    · simp only [Transaction.VisitArrayLogs, hguard, if_true, hrun]
    · exact fun p hp => hb p hp
    · exact fun k hk hmove => hc k hk hmove

/-- Witness for C9: a concrete visitor relocating the one logged object
(2 to 4) and the one logged array (1 to 6) re-keys the object log with its
contents preserved and removes the old key. -/
theorem c9_visit_rekey_witness :
    ∃ t', Transaction.VisitObjectLogs
        { Transaction.create false 0 with
          object_logs := [(2, ⟨[(12, ⟨3, false, .k32Bits⟩)]⟩)],
          array_logs := [(1, ⟨[(0, 7)]⟩)] }
        (fun n => if n = 2 then 4 else if n = 1 then 6 else n) = some t' ∧
      (∀ p ∈ ({ Transaction.create false 0 with
          object_logs := [(2, ⟨[(12, ⟨3, false, .k32Bits⟩)]⟩)],
          array_logs := [(1, ⟨[(0, 7)]⟩)] } : Transaction).object_logs,
        alookup t'.object_logs ((fun n => if n = 2 then 4 else if n = 1 then 6 else n) p.1) =
          some (p.2.VisitRoots (fun n => if n = 2 then 4 else if n = 1 then 6 else n))) ∧
      (∀ k ∈ keysOf ({ Transaction.create false 0 with
          object_logs := [(2, ⟨[(12, ⟨3, false, .k32Bits⟩)]⟩)],
          array_logs := [(1, ⟨[(0, 7)]⟩)] } : Transaction).object_logs,
        (fun n => if n = 2 then 4 else if n = 1 then 6 else n) k ≠ k →
          alookup t'.object_logs k = none) :=
  (c9_visit_rekey
    { Transaction.create false 0 with
      object_logs := [(2, ⟨[(12, ⟨3, false, .k32Bits⟩)]⟩)],
      array_logs := [(1, ⟨[(0, 7)]⟩)] }
    hTest (fun n => if n = 2 then 4 else if n = 1 then 6 else n)
    (by decide) (by decide) (by decide) (by decide) (by decide) (by decide) (by decide)).1

end Art
